import Mathlib

/-!
Shallow embedding of the Wordle solver core (src/wordleGuessr.py).

Words and patterns are lists of characters.  Python exceptions are
modelled by Option: a result of none stands for an uncaught exception
(such as the IndexError raised when a word shorter than 5 characters is
indexed), some r for a normal return of r.  Floating point values are
modelled by real numbers.
-/

set_option maxHeartbeats 1000000

/-- The lowercase alphabet (ALPHA in the source). -/
def ALPHA : List Char := "abcdefghijklmnopqrstuvwxyz".toList

/-- Read l[0], ..., l[4] as Python does inside a range(5) loop: fails
(IndexError, modelled as none) when the list has fewer than 5 elements,
and silently ignores every element past index 4. -/
def take5 (l : List Char) : Option (List Char) := do
  let a ← l.get? 0
  let b ← l.get? 1
  let c ← l.get? 2
  let d ← l.get? 3
  let e ← l.get? 4
  pure [a, b, c, d, e]

/-- First loop of pattern_for: positions where guess and solution agree
are marked C (and that solution letter is consumed, s[i] = None in the
source); the solution letters at the remaining positions are collected
into the Counter of remaining letters. -/
def firstPass : List Char → List Char → List Char × List Char
  | gc :: gt, sc :: st =>
    let r := firstPass gt st
    if gc = sc then ('C' :: r.1, r.2) else ('N' :: r.1, sc :: r.2)
  | _, _ => ([], [])

/-- Second loop of pattern_for: a position already marked C is kept; an
unmarked position becomes P when the remaining-letter Counter still holds
its guess letter (consuming one occurrence), and N otherwise. -/
def secondPass : List Char → List Char → List Char → List Char
  | m :: mt, gc :: gt, rem =>
    if m = 'C' then 'C' :: secondPass mt gt rem
    else if 0 < rem.count gc then 'P' :: secondPass mt gt (rem.erase gc)
    else 'N' :: secondPass mt gt rem
  | _, _, _ => []

/-- The two passes of pattern_for over already-extracted 5-letter lists. -/
def patternCore (g s : List Char) : List Char :=
  secondPass (firstPass g s).1 g (firstPass g s).2

/-- pattern_for(guess, solution) from the source: both loops run over
range(5), so both words are indexed at 0..4 (IndexError when shorter,
silent truncation when longer). -/
def pattern_for (guess solution : List Char) : Option (List Char) := do
  let g ← take5 guess
  let s ← take5 solution
  pure (patternCore g s)

/-- consistent_with(guess, pat, candidate) from the source. -/
def consistent_with (guess pat candidate : List Char) : Option Bool :=
  (pattern_for guess candidate).map (fun r => r == pat)

/-- filter_candidates(cands, guess, pat) from the source: the list
comprehension keeps, in order, the candidates consistent with the
feedback; an exception inside the predicate propagates. -/
def filter_candidates : List (List Char) → List Char → List Char → Option (List (List Char))
  | [], _, _ => some []
  | w :: ws, guess, pat => do
    let b ← consistent_with guess pat w
    let rest ← filter_candidates ws guess pat
    pure (if b then w :: rest else rest)

/-! ## Basic lemmas about the pattern engine -/

theorem take5_of_length_eq (l : List Char) (h : l.length = 5) : take5 l = some l := by
  match l, h with
  | [a, b, c, d, e], _ => rfl

theorem take5_none_of_short (l : List Char) (h : l.length < 5) : take5 l = none := by
  match l, h with
  | [], _ => rfl
  | [a], _ => rfl
  | [a, b], _ => rfl
  | [a, b, c], _ => rfl
  | [a, b, c, d], _ => rfl

theorem take5_of_long (l : List Char) (h : 5 ≤ l.length) : take5 l = some (l.take 5) := by
  match l, h with
  | a :: b :: c :: d :: e :: rest, _ => rfl

theorem take5_length (l r : List Char) (h : take5 l = some r) : r.length = 5 := by
  rcases Nat.lt_or_ge l.length 5 with hl | hl
  · rw [take5_none_of_short l hl] at h
    cases h
  · rw [take5_of_long l hl] at h
    injection h with h
    rw [← h, List.length_take]
    omega

theorem pattern_for_eq_core (g s : List Char) (hg : g.length = 5) (hs : s.length = 5) :
    pattern_for g s = some (patternCore g s) := by
  simp [pattern_for, take5_of_length_eq g hg, take5_of_length_eq s hs]

/-- The marks produced by the first pass: C exactly at the agreeing
positions, N elsewhere. -/
theorem firstPass_marks (g s : List Char) :
    (firstPass g s).1 = List.zipWith (fun a b => if a = b then 'C' else 'N') g s := by
  induction g generalizing s with
  | nil => cases s <;> simp [firstPass]
  | cons gc gt ih =>
    cases s with
    | nil => simp [firstPass]
    | cons sc st =>
      by_cases h : gc = sc <;> simp [firstPass, h, ih st]

/-- Conservation of solution letters through the first pass: for any
letter c, the occurrences of c left in the remaining Counter plus the
matched positions carrying c account for every c in the solution. -/
theorem firstPass_rem_count (g s : List Char) (h : g.length = s.length) (c : Char) :
    (firstPass g s).2.count c + (g.zip s).count (c, c) = s.count c := by
  induction g generalizing s with
  | nil =>
    cases s with
    | nil => simp [firstPass]
    | cons sc st => simp at h
  | cons gc gt ih =>
    cases s with
    | nil => simp at h
    | cons sc st =>
      have ht : gt.length = st.length := by simpa using h
      have ihst := ih st ht
      by_cases hgs : gc = sc
      · subst hgs
        by_cases hc : gc = c
        · subst hc
          simp [firstPass, List.count_cons] <;> omega
        · have hc2 : c ≠ gc := fun e => hc e.symm
          simp [firstPass, List.count_cons, hc2, hc] <;> omega
      · by_cases hc : sc = c
        · subst hc
          have hgs2 : sc ≠ gc := fun e => hgs e.symm
          simp [firstPass, hgs, hgs2, List.count_cons] <;> omega
        · have hc2 : c ≠ sc := fun e => hc e.symm
          simp [firstPass, hgs, hc2, List.count_cons] <;> omega

theorem firstPass_marks_length (g s : List Char) (h : g.length = s.length) :
    (firstPass g s).1.length = g.length := by
  rw [firstPass_marks, List.length_zipWith, h, Nat.min_self]

theorem firstPass_self (w : List Char) :
    firstPass w w = (List.replicate w.length 'C', []) := by
  induction w with
  | nil => rfl
  | cons a t ih => simp [firstPass, ih, List.replicate_succ]

theorem secondPass_length (marks g : List Char) (h : marks.length = g.length) :
    ∀ rem, (secondPass marks g rem).length = g.length := by
  induction marks generalizing g with
  | nil =>
    cases g with
    | nil => intro rem; rfl
    | cons gc gt => simp at h
  | cons m mt ih =>
    cases g with
    | nil => simp at h
    | cons gc gt =>
      intro rem
      have ht : mt.length = gt.length := by simpa using h
      by_cases hm : m = 'C'
      · simp [secondPass, hm, ih gt ht]
      · by_cases hr : 0 < rem.count gc
        · simp [secondPass, hm, hr, ih gt ht]
        · simp [secondPass, hm, hr, ih gt ht]

theorem secondPass_symbols (marks g rem : List Char) :
    ∀ m ∈ secondPass marks g rem, m = 'C' ∨ m = 'P' ∨ m = 'N' := by
  induction marks generalizing g rem with
  | nil => intro m hm; simp [secondPass] at hm
  | cons mk mt ih =>
    intro m hm
    cases g with
    | nil => simp [secondPass] at hm
    | cons gc gt =>
      by_cases hm1 : mk = 'C'
      · simp only [secondPass, if_pos hm1, List.mem_cons] at hm
        rcases hm with h | h
        · exact Or.inl h
        · exact ih gt rem m h
      · by_cases hr : 0 < rem.count gc
        · simp only [secondPass, if_neg hm1, if_pos hr, List.mem_cons] at hm
          rcases hm with h | h
          · exact Or.inr (Or.inl h)
          · exact ih gt (rem.erase gc) m h
        · simp only [secondPass, if_neg hm1, if_neg hr, List.mem_cons] at hm
          rcases hm with h | h
          · exact Or.inr (Or.inr h)
          · exact ih gt rem m h


theorem secondPass_cons (mk gc : Char) (mt gt rem : List Char) :
    secondPass (mk :: mt) (gc :: gt) rem =
      if mk = 'C' then 'C' :: secondPass mt gt rem
      else if 0 < rem.count gc then 'P' :: secondPass mt gt (rem.erase gc)
      else 'N' :: secondPass mt gt rem := rfl

theorem secondPass_nil_marks (g rem : List Char) : secondPass [] g rem = [] := by
  cases g <;> rfl

/-- The second pass never changes which positions are marked C. -/
theorem secondPass_get_C (marks g : List Char) (h : marks.length = g.length) :
    ∀ rem i, ((secondPass marks g rem).get? i = some 'C' ↔ marks.get? i = some 'C') := by
  induction marks generalizing g with
  | nil =>
    intro rem i
    rw [secondPass_nil_marks]
  | cons mk mt ih =>
    cases g with
    | nil => simp at h
    | cons gc gt =>
      intro rem i
      have ht : mt.length = gt.length := by simpa using h
      rw [secondPass_cons]
      by_cases hm1 : mk = 'C'
      · subst hm1
        rw [if_pos rfl]
        cases i with
        | zero => simp
        | succ j =>
          simp only [List.get?_cons_succ]
          exact ih gt ht rem j
      · rw [if_neg hm1]
        by_cases hr : 0 < rem.count gc
        · rw [if_pos hr]
          cases i with
          | zero => simp [hm1]
          | succ j =>
            simp only [List.get?_cons_succ]
            exact ih gt ht (rem.erase gc) j
        · rw [if_neg hr]
          cases i with
          | zero => simp [hm1]
          | succ j =>
            simp only [List.get?_cons_succ]
            exact ih gt ht rem j

/-- Each P mark for a letter consumes one occurrence of that letter from
the remaining-letter Counter, so P marks for a letter never exceed what
the Counter holds. -/
theorem secondPass_P_count (marks g : List Char) (h : marks.length = g.length) (c : Char) :
    ∀ rem, (g.zip (secondPass marks g rem)).count (c, 'P') ≤ rem.count c := by
  induction marks generalizing g with
  | nil =>
    intro rem
    rw [secondPass_nil_marks]
    simp
  | cons mk mt ih =>
    cases g with
    | nil => simp at h
    | cons gc gt =>
      intro rem
      have ht : mt.length = gt.length := by simpa using h
      rw [secondPass_cons]
      by_cases hm1 : mk = 'C'
      · rw [if_pos hm1, List.zip_cons_cons, List.count_cons]
        have hrec := ih gt ht rem
        simp only [show (((gc, 'C') == (c, 'P')) = false) from
          beq_eq_false_iff_ne.mpr (fun hco => by injection hco with e1 e2; cases e2)]
        simpa using hrec
      · rw [if_neg hm1]
        by_cases hr : 0 < rem.count gc
        · rw [if_pos hr, List.zip_cons_cons, List.count_cons]
          by_cases hcg : gc = c
          · subst hcg
            have hrec := ih gt ht (rem.erase gc)
            have herase : (rem.erase gc).count gc = rem.count gc - 1 :=
              List.count_erase_self gc rem
            simp only [beq_self_eq_true, if_true]
            omega
          · have hrec := ih gt ht (rem.erase gc)
            have herase : (rem.erase gc).count c = rem.count c :=
              List.count_erase_of_ne (fun e => hcg e.symm) rem
            have hx : (((gc, 'P') == (c, 'P')) = false) :=
              beq_eq_false_iff_ne.mpr (fun hco => by injection hco with e1 e2; exact hcg e1)
            simp only [hx, Bool.false_eq_true, if_false]
            omega
        · rw [if_neg hr, List.zip_cons_cons, List.count_cons]
          have hrec := ih gt ht rem
          simp only [show (((gc, 'N') == (c, 'P')) = false) from
            beq_eq_false_iff_ne.mpr (fun hco => by injection hco with e1 e2; cases e2)]
          simpa using hrec

/-- The second pass leaves the number of C marks over any guess letter
unchanged. -/
theorem secondPass_C_count (marks g : List Char) (h : marks.length = g.length) (c : Char) :
    ∀ rem, (g.zip (secondPass marks g rem)).count (c, 'C') = (g.zip marks).count (c, 'C') := by
  induction marks generalizing g with
  | nil =>
    intro rem
    rw [secondPass_nil_marks]
  | cons mk mt ih =>
    cases g with
    | nil => simp at h
    | cons gc gt =>
      intro rem
      have ht : mt.length = gt.length := by simpa using h
      rw [secondPass_cons]
      by_cases hm1 : mk = 'C'
      · subst hm1
        rw [if_pos rfl, List.zip_cons_cons, List.zip_cons_cons, List.count_cons,
          List.count_cons, ih gt ht rem]
      · rw [if_neg hm1]
        have hkC : ((gc, mk) == (c, 'C')) = false :=
          beq_eq_false_iff_ne.mpr (fun hco => by injection hco with e1 e2; exact hm1 e2)
        by_cases hr : 0 < rem.count gc
        · rw [if_pos hr, List.zip_cons_cons, List.zip_cons_cons, List.count_cons,
            List.count_cons, ih gt ht (rem.erase gc)]
          have hCP : ((gc, 'P') == (c, 'C')) = false :=
            beq_eq_false_iff_ne.mpr (fun hco => by injection hco with e1 e2; cases e2)
          rw [hCP, hkC]
        · rw [if_neg hr, List.zip_cons_cons, List.zip_cons_cons, List.count_cons,
            List.count_cons, ih gt ht rem]
          have hCN : ((gc, 'N') == (c, 'C')) = false :=
            beq_eq_false_iff_ne.mpr (fun hco => by injection hco with e1 e2; cases e2)
          rw [hCN, hkC]

/-- C marks produced by the first pass for a letter stand exactly at the
positions where guess and solution both carry that letter. -/
theorem firstPass_fst_pos (gc sc : Char) (gt st : List Char) (h : gc = sc) :
    (firstPass (gc :: gt) (sc :: st)).1 = 'C' :: (firstPass gt st).1 := by
  simp [firstPass, h]

theorem firstPass_fst_neg (gc sc : Char) (gt st : List Char) (h : ¬ gc = sc) :
    (firstPass (gc :: gt) (sc :: st)).1 = 'N' :: (firstPass gt st).1 := by
  simp [firstPass, h]

theorem firstPass_C_count (g s : List Char) (c : Char) :
    (g.zip (firstPass g s).1).count (c, 'C') = (g.zip s).count (c, c) := by
  induction g generalizing s with
  | nil => simp [firstPass]
  | cons gc gt ih =>
    cases s with
    | nil => simp [firstPass]
    | cons sc st =>
      by_cases hgs : gc = sc
      · rw [firstPass_fst_pos gc sc gt st hgs, List.zip_cons_cons, List.zip_cons_cons,
          List.count_cons, List.count_cons, ih st]
        subst hgs
        by_cases hc : gc = c
        · subst hc
          simp
        · have h1 : ((gc, 'C') == (c, 'C')) = false :=
            beq_eq_false_iff_ne.mpr (fun hco => by injection hco with e1 e2; exact hc e1)
          have h2 : ((gc, gc) == (c, c)) = false :=
            beq_eq_false_iff_ne.mpr (fun hco => by injection hco with e1 e2; exact hc e1)
          rw [h1, h2]
      · rw [firstPass_fst_neg gc sc gt st hgs, List.zip_cons_cons, List.zip_cons_cons,
          List.count_cons, List.count_cons, ih st]
        have h1 : ((gc, 'N') == (c, 'C')) = false :=
          beq_eq_false_iff_ne.mpr (fun hco => by injection hco with e1 e2; cases e2)
        have h2 : ((gc, sc) == (c, c)) = false :=
          beq_eq_false_iff_ne.mpr
            (fun hco => by injection hco with e1 e2; exact hgs (e1.trans e2.symm))
        rw [h1, h2]

theorem secondPass_replicate_C (g : List Char) :
    ∀ rem, secondPass (List.replicate g.length 'C') g rem = List.replicate g.length 'C' := by
  induction g with
  | nil => intro rem; rfl
  | cons gc gt ih =>
    intro rem
    rw [List.length_cons, List.replicate_succ, secondPass_cons, if_pos rfl, ih rem]

theorem patternCore_self (w : List Char) : patternCore w w = List.replicate w.length 'C' := by
  unfold patternCore
  rw [firstPass_self]
  exact secondPass_replicate_C w []

/-- For a zipWith-produced list of first-pass marks, position i holds C
exactly when guess and solution agree at i. -/
theorem zipWith_marks_get (g s : List Char) (i : Nat) (hi : i < g.length)
    (h : g.length = s.length) :
    ((List.zipWith (fun a b => if a = b then 'C' else 'N') g s).get? i = some 'C')
      ↔ g.get? i = s.get? i := by
  induction g generalizing s i with
  | nil => simp at hi
  | cons gc gt ih =>
    cases s with
    | nil => simp at h
    | cons sc st =>
      cases i with
      | zero =>
        simp only [List.zipWith_cons_cons, List.get?_cons_zero]
        by_cases hgs : gc = sc <;> simp [hgs]
      | succ j =>
        simp only [List.zipWith_cons_cons, List.get?_cons_succ]
        exact ih st j (by simpa using hi) (by simpa using h)

/-! ## Claim theorems for the pattern engine -/

/-- Claim C8: for every word w of length 5, computePattern(w, w) is the
all-Correct pattern. -/
theorem pattern_for_self_all_correct (w : List Char) (h : w.length = 5) :
    pattern_for w w = some (List.replicate 5 'C') := by
  rw [pattern_for_eq_core w w h h, patternCore_self, h]

theorem pattern_for_self_all_correct_witness :
    pattern_for ("crane".toList) ("crane".toList) = some (List.replicate 5 'C') :=
  pattern_for_self_all_correct ("crane".toList) (by decide)

/-- Claim C9: for 5-letter guess and solution, the produced pattern has
length exactly 5 and every symbol is one of C, P, N. -/
theorem pattern_for_shape (g s : List Char) (hg : g.length = 5) (hs : s.length = 5) :
    ∃ p, pattern_for g s = some p ∧ p.length = 5 ∧
      ∀ m ∈ p, m = 'C' ∨ m = 'P' ∨ m = 'N' := by
  have hgs : g.length = s.length := hg.trans hs.symm
  refine ⟨patternCore g s, pattern_for_eq_core g s hg hs, ?_, ?_⟩
  · have := secondPass_length (firstPass g s).1 g (firstPass_marks_length g s hgs)
      (firstPass g s).2
    unfold patternCore
    rw [this, hg]
  · intro m hm
    exact secondPass_symbols (firstPass g s).1 g (firstPass g s).2 m hm

theorem pattern_for_shape_witness :
    ∃ p, pattern_for ("crane".toList) ("grape".toList) = some p ∧ p.length = 5 ∧
      ∀ m ∈ p, m = 'C' ∨ m = 'P' ∨ m = 'N' :=
  pattern_for_shape ("crane".toList) ("grape".toList) (by decide) (by decide)

/-- Claim C1: for 5-letter lowercase guess and solution the pattern marks
position i Correct exactly when guess and solution agree there, and for
every letter the number of positions marked Correct or Present over that
letter never exceeds the letter count in the solution (the two-pass
duplicate-letter rule; the first pass claims Correct positions before the
second pass hands out Present marks). -/
theorem pattern_for_duplicate_rule (g s : List Char) (hg : g.length = 5) (hs : s.length = 5)
    (hga : ∀ ch ∈ g, ch ∈ ALPHA) (hsa : ∀ ch ∈ s, ch ∈ ALPHA) :
    ∃ p, pattern_for g s = some p ∧
      (∀ i, i < 5 → (p.get? i = some 'C' ↔ g.get? i = s.get? i)) ∧
      (∀ c : Char, (g.zip p).count (c, 'C') + (g.zip p).count (c, 'P') ≤ s.count c) := by
  have hgs : g.length = s.length := hg.trans hs.symm
  have hlen : (firstPass g s).1.length = g.length := firstPass_marks_length g s hgs
  refine ⟨patternCore g s, pattern_for_eq_core g s hg hs, ?_, ?_⟩
  · intro i hi
    have h1 := secondPass_get_C (firstPass g s).1 g hlen (firstPass g s).2 i
    have h2 : patternCore g s = secondPass (firstPass g s).1 g (firstPass g s).2 := rfl
    rw [h2, h1, firstPass_marks]
    exact zipWith_marks_get g s i (by omega) hgs
  · intro c
    have hC := secondPass_C_count (firstPass g s).1 g hlen c (firstPass g s).2
    have hP := secondPass_P_count (firstPass g s).1 g hlen c (firstPass g s).2
    have hF := firstPass_C_count g s c
    have hR := firstPass_rem_count g s hgs c
    have h2 : patternCore g s = secondPass (firstPass g s).1 g (firstPass g s).2 := rfl
    rw [h2]
    omega

theorem pattern_for_duplicate_rule_witness :
    ∃ p, pattern_for ("sassy".toList) ("class".toList) = some p ∧
      (∀ i, i < 5 →
        (p.get? i = some 'C' ↔ ("sassy".toList).get? i = ("class".toList).get? i)) ∧
      (∀ c : Char, (("sassy".toList).zip p).count (c, 'C')
          + (("sassy".toList).zip p).count (c, 'P') ≤ ("class".toList).count c) :=
  pattern_for_duplicate_rule ("sassy".toList) ("class".toList)
    (by decide) (by decide) (by decide) (by decide)

/-- Counterexample to claim C7: pattern_for performs no validation at
all.  A six-letter word is silently truncated to its first five letters
and a word with uppercase (non-alphabet) characters is processed like any
other; in both cases a pattern is produced instead of an error. -/
theorem pattern_for_no_validation_cx :
    pattern_for ("cranes".toList) ("cranes".toList) = some (List.replicate 5 'C') ∧
    pattern_for ("ABCDE".toList) ("ABCDE".toList) = some (List.replicate 5 'C') := by
  constructor <;> decide

/-- Claim C7 as amended: pattern_for fails (with IndexError, not a
validation error) exactly when one of its inputs is shorter than 5;
inputs of length at least 5 are silently truncated to their first five
characters and produce a pattern, and no alphabet check is performed. -/
theorem pattern_for_no_validation (g s : List Char) :
    (g.length < 5 ∨ s.length < 5 → pattern_for g s = none) ∧
    (5 ≤ g.length → 5 ≤ s.length →
      pattern_for g s = pattern_for (g.take 5) (s.take 5) ∧
      ∃ p, pattern_for g s = some p) := by
  constructor
  · intro h
    rcases h with h | h
    · simp [pattern_for, take5_none_of_short g h]
    · rcases hg : take5 g with _ | g5
      · simp [pattern_for, hg]
      · simp [pattern_for, hg, take5_none_of_short s h]
  · intro hg hs
    have h5g : (g.take 5).length = 5 := by
      rw [List.length_take]; omega
    have h5s : (s.take 5).length = 5 := by
      rw [List.length_take]; omega
    constructor
    · simp [pattern_for, take5_of_long g hg, take5_of_long s hs,
        take5_of_length_eq (g.take 5) h5g, take5_of_length_eq (s.take 5) h5s]
    · refine ⟨patternCore (g.take 5) (s.take 5), ?_⟩
      simp [pattern_for, take5_of_long g hg, take5_of_long s hs]

theorem pattern_for_no_validation_witness :
    pattern_for ("abc".toList) ("crane".toList) = none ∧
    pattern_for ("cranes".toList) ("cranest".toList)
      = pattern_for (("cranes".toList).take 5) (("cranest".toList).take 5) :=
  ⟨(pattern_for_no_validation ("abc".toList) ("crane".toList)).1 (Or.inl (by decide)),
   ((pattern_for_no_validation ("cranes".toList) ("cranest".toList)).2
      (by decide) (by decide)).1⟩

/-- The filter agrees with List.filter over the consistency predicate
when the guess and all candidates are well-formed 5-letter words. -/
theorem filter_candidates_eq (C : List (List Char)) (g p : List Char)
    (hg : g.length = 5) (hC : ∀ w ∈ C, w.length = 5) :
    filter_candidates C g p = some (C.filter (fun w => pattern_for g w == some p)) := by
  induction C with
  | nil => rfl
  | cons w ws ih =>
    have hw : w.length = 5 := hC w (by simp)
    have hws : ∀ x ∈ ws, x.length = 5 := fun x hx => hC x (by simp [hx])
    have hpf : pattern_for g w = some (patternCore g w) := pattern_for_eq_core g w hg hw
    have hbeq : ((pattern_for g w == some p) : Bool) = (patternCore g w == p) := by
      rw [hpf]
      rfl
    simp only [filter_candidates, consistent_with, hpf, Option.map_some', ih hws,
      Option.some_bind, List.filter_cons, hbeq]
    by_cases hb : (patternCore g w == p) = true
    · simp [hb]
    · simp [Bool.of_not_eq_true hb]

/-- Claim C2: filter_candidates returns, in the original order, exactly
the candidates whose pattern against the guess equals the given pattern:
it equals List.filter of the consistency predicate, every kept word
matches, every dropped word does not, and the result is a sublist of the
input (the input list itself is left untouched; the comprehension builds
a new list). -/
theorem filter_candidates_spec (C : List (List Char)) (g p : List Char)
    (hg : g.length = 5) (hC : ∀ w ∈ C, w.length = 5) :
    ∃ R, filter_candidates C g p = some R ∧
      R = C.filter (fun w => pattern_for g w == some p) ∧
      (∀ w ∈ R, pattern_for g w = some p) ∧
      (∀ w ∈ C, w ∉ R → ¬ pattern_for g w = some p) ∧
      R.Sublist C := by
  refine ⟨C.filter (fun w => pattern_for g w == some p),
    filter_candidates_eq C g p hg hC, rfl, ?_, ?_, List.filter_sublist C⟩
  · intro w hw
    exact eq_of_beq (List.mem_filter.mp hw).2
  · intro w hwC hwR hcontra
    apply hwR
    apply List.mem_filter.mpr
    refine ⟨hwC, ?_⟩
    rw [hcontra]
    exact beq_self_eq_true _

theorem filter_candidates_spec_witness :
    ∃ R, filter_candidates [("crane".toList), ("slate".toList), ("grape".toList)]
        ("crane".toList) ("CCCCC".toList) = some R ∧
      R = [("crane".toList), ("slate".toList), ("grape".toList)].filter
        (fun w => pattern_for ("crane".toList) w == some ("CCCCC".toList)) ∧
      (∀ w ∈ R, pattern_for ("crane".toList) w = some ("CCCCC".toList)) ∧
      (∀ w ∈ [("crane".toList), ("slate".toList), ("grape".toList)], w ∉ R →
        ¬ pattern_for ("crane".toList) w = some ("CCCCC".toList)) ∧
      R.Sublist [("crane".toList), ("slate".toList), ("grape".toList)] :=
  filter_candidates_spec [("crane".toList), ("slate".toList), ("grape".toList)]
    ("crane".toList) ("CCCCC".toList) (by decide) (by decide)

/-! ## Frequency scorer -/

def emptyCounter : Char → Nat := fun _ => 0

/-- Counter increment (pos[i][ch] += 1). -/
def bump (f : Char → Nat) (c : Char) : Char → Nat :=
  fun x => if x = c then f x + 1 else f x

/-- One word folded into the position counters: the letter at position i
bumps counter i; IndexError (none) when the word is longer than the
counter list; a shorter word leaves the later counters untouched. -/
def addWord : List (Char → Nat) → List Char → Option (List (Char → Nat))
  | pos, [] => some pos
  | [], _ :: _ => none
  | f :: fs, c :: cs => (addWord fs cs).map (fun r => bump f c :: r)

/-- position_frequencies(words) from the source: five empty Counters,
then every word is folded in. -/
def position_frequencies (words : List (List Char)) : Option (List (Char → Nat)) :=
  words.foldlM addWord (List.replicate 5 emptyCounter)

/-- The positional part of likelihood_score: sum of pos_freq[i][word[i]];
IndexError when the word is longer than the table. -/
def posScore : List (Char → Nat) → List Char → Option Nat
  | _, [] => some 0
  | [], _ :: _ => none
  | f :: fs, c :: cs => (posScore fs cs).map (fun r => f c + r)

/-- likelihood_score(word, pos_freq) from the source: positional
frequencies plus a 0.1 bonus per distinct letter of the word. -/
noncomputable def likelihood_score (word : List Char) (pf : List (Char → Nat)) :
    Option ℝ :=
  (posScore pf word).map (fun r => (r : ℝ) + 0.1 * (word.dedup.length : ℝ))

/-- best_likelihood_guess(candidates) from the source: builds the table
from the candidates, then keeps the first strictly greater score,
starting from (None, -1.0). -/
noncomputable def best_likelihood_guess (candidates : List (List Char)) :
    Option (Option (List Char) × ℝ) := do
  let pf ← position_frequencies candidates
  candidates.foldlM
    (fun acc w => (likelihood_score w pf).map
      (fun sc => if acc.2 < sc then (some w, sc) else acc))
    ((none : Option (List Char)), (-1 : ℝ))

/-! ## Entropy scorer -/

/-- Bucket sizes of the defaultdict(int) pattern buckets: one count per
distinct pattern among the computed patterns. -/
def bucketSizes (pats : List (List Char)) : List Nat :=
  pats.dedup.map (fun q => pats.count q)

/-- The entropy summation over bucket sizes: ent += -p * log2(p) with
p = k / n. -/
noncomputable def entropyOfSizes (n : Nat) (sizes : List Nat) : ℝ :=
  (sizes.map (fun (k : Nat) => -((k : ℝ) / (n : ℝ)) * Real.logb 2 ((k : ℝ) / (n : ℝ)))).sum

/-- entropy_of_guess(guess, candidates) from the source: bucket the
candidates by their pattern for the guess, then sum -p*log2(p) over the
buckets; a pattern_for failure inside the loop propagates. -/
noncomputable def entropy_of_guess (guess : List Char) (candidates : List (List Char)) :
    Option ℝ :=
  (candidates.mapM (fun sol => pattern_for guess sol)).map
    (fun pats => entropyOfSizes candidates.length (bucketSizes pats))

/-- Membership of the running best in the candidates (Python tests
best_g not in candidates, where best_g may be None and None never equals
a word). -/
def optMem (o : Option (List Char)) (c : List (List Char)) : Prop :=
  ∃ w, o = some w ∧ w ∈ c

open Classical in
/-- One iteration of the best_entropy_guess loop: replace the running
best when the entropy is strictly greater, or equal while the new guess
is a candidate and the running best is not. -/
noncomputable def scanStep (candidates : List (List Char))
    (acc : Option (List Char) × ℝ) (g : List Char) : Option (Option (List Char) × ℝ) :=
  (entropy_of_guess g candidates).map
    (fun e => if acc.2 < e ∨ (e = acc.2 ∧ g ∈ candidates ∧ ¬ optMem acc.1 candidates)
      then (some g, e) else acc)

/-- The pool scanned by best_entropy_guess: allowed when more than 30
candidates remain, the candidates themselves otherwise. -/
def chosenPool (candidates allowed : List (List Char)) : List (List Char) :=
  if 30 < candidates.length then allowed else candidates

/-- The scanning loop of best_entropy_guess. -/
noncomputable def scanPool (pool candidates : List (List Char))
    (acc : Option (List Char) × ℝ) : Option (Option (List Char) × ℝ) :=
  pool.foldlM (scanStep candidates) acc

/-- best_entropy_guess(candidates, allowed) from the source. -/
noncomputable def best_entropy_guess (candidates allowed : List (List Char)) :
    Option (Option (List Char) × ℝ) :=
  scanPool (chosenPool candidates allowed) candidates
    ((none : Option (List Char)), (-1 : ℝ))

/-! ## Claims about totality on empty input and pool selection -/

/-- Claim C10: entropy_of_guess on an empty candidate list returns 0.0
without raising: the bucket dictionary stays empty, so the division by
n = 0 is never reached. -/
theorem entropy_of_guess_empty (guess : List Char) :
    entropy_of_guess guess [] = some 0 := by
  have h0 : (([] : List (List Char)).mapM (fun sol => pattern_for guess sol)) = some [] := rfl
  unfold entropy_of_guess
  rw [h0]
  simp [entropyOfSizes, bucketSizes]

/-- Counterexample to claim C6: neither scoring operation fails on empty
input; no exception (none) is produced. -/
theorem empty_input_cx :
    best_likelihood_guess [] ≠ none ∧ best_entropy_guess [] [] ≠ none := by
  constructor
  · intro h
    simp [best_likelihood_guess, position_frequencies] at h
  · intro h
    simp [best_entropy_guess, chosenPool, scanPool] at h

/-- Claim C6 as amended: on an empty candidate list best_likelihood_guess
returns the sentinel (None, -1.0) instead of failing, and with empty
candidates and empty allowed pool best_entropy_guess likewise returns
(None, -1.0): the loops simply never run. -/
theorem empty_input_sentinel (c a : List (List Char)) (hc : c = []) (ha : a = []) :
    best_likelihood_guess c = some ((none : Option (List Char)), (-1 : ℝ)) ∧
    best_entropy_guess c a = some ((none : Option (List Char)), (-1 : ℝ)) := by
  subst hc
  subst ha
  constructor
  · simp [best_likelihood_guess, position_frequencies]
  · simp [best_entropy_guess, chosenPool, scanPool]

theorem empty_input_sentinel_witness :
    best_likelihood_guess [] = some ((none : Option (List Char)), (-1 : ℝ)) ∧
    best_entropy_guess [] [] = some ((none : Option (List Char)), (-1 : ℝ)) :=
  empty_input_sentinel [] [] rfl rfl

/-- Claim C4: best_entropy_guess scans the allowed pool when more than 30
candidates remain and scans the candidates themselves otherwise; in the
latter case the allowed pool is irrelevant to the result. -/
theorem best_entropy_pool_choice (c a : List (List Char)) :
    (30 < c.length →
      best_entropy_guess c a = scanPool a c ((none : Option (List Char)), (-1 : ℝ))) ∧
    (c.length ≤ 30 →
      best_entropy_guess c a = scanPool c c ((none : Option (List Char)), (-1 : ℝ)) ∧
      ∀ a2, best_entropy_guess c a = best_entropy_guess c a2) := by
  constructor
  · intro h
    unfold best_entropy_guess chosenPool
    rw [if_pos h]
  · intro h
    have hn : ¬ 30 < c.length := by omega
    constructor
    · unfold best_entropy_guess chosenPool
      rw [if_neg hn]
    · intro a2
      unfold best_entropy_guess chosenPool
      rw [if_neg hn, if_neg hn]

theorem best_entropy_pool_choice_witness :
    best_entropy_guess (List.replicate 31 ("crane".toList)) [("slate".toList)]
        = scanPool [("slate".toList)] (List.replicate 31 ("crane".toList))
            ((none : Option (List Char)), (-1 : ℝ)) ∧
    best_entropy_guess (List.replicate 30 ("crane".toList)) [("slate".toList)]
        = scanPool (List.replicate 30 ("crane".toList))
            (List.replicate 30 ("crane".toList))
            ((none : Option (List Char)), (-1 : ℝ)) :=
  ⟨(best_entropy_pool_choice (List.replicate 31 ("crane".toList)) [("slate".toList)]).1
      (by simp),
   ((best_entropy_pool_choice (List.replicate 30 ("crane".toList)) [("slate".toList)]).2
      (by simp)).1⟩

/-! ## Entropy mathematics -/

/-- The pure entropy value of a guess against well-formed candidates. -/
noncomputable def entPure (g : List Char) (c : List (List Char)) : ℝ :=
  entropyOfSizes c.length (bucketSizes (c.map (fun w => patternCore g w)))

theorem mapM_pattern (g : List Char) (c : List (List Char)) (hg : g.length = 5)
    (hc : ∀ w ∈ c, w.length = 5) :
    c.mapM (fun sol => pattern_for g sol) = some (c.map (fun w => patternCore g w)) := by
  induction c with
  | nil => rfl
  | cons w ws ih =>
    have hw : w.length = 5 := hc w (by simp)
    have hws : ∀ x ∈ ws, x.length = 5 := fun x hx => hc x (by simp [hx])
    rw [List.mapM_cons, pattern_for_eq_core g w hg hw, ih hws]
    rfl

theorem entropy_of_guess_eq_pure (g : List Char) (c : List (List Char)) (hg : g.length = 5)
    (hc : ∀ w ∈ c, w.length = 5) :
    entropy_of_guess g c = some (entPure g c) := by
  unfold entropy_of_guess entPure
  rw [mapM_pattern g c hg hc]
  rw [Option.map_some']

theorem entropy_term_nonneg (n k : Nat) (hk : k ≤ n) :
    0 ≤ -((k : ℝ) / (n : ℝ)) * Real.logb 2 ((k : ℝ) / (n : ℝ)) := by
  have hx0 : 0 ≤ (k : ℝ) / (n : ℝ) := by positivity
  have hx1 : (k : ℝ) / (n : ℝ) ≤ 1 := by
    rcases Nat.eq_zero_or_pos n with hn | hn
    · subst hn
      simp
    · have hc : (k : ℝ) ≤ (n : ℝ) := by exact_mod_cast hk
      have hnpos : (0 : ℝ) < (n : ℝ) := by exact_mod_cast hn
      rw [div_le_one hnpos]
      exact hc
  have hlog : Real.logb 2 ((k : ℝ) / (n : ℝ)) ≤ 0 :=
    Real.logb_nonpos one_lt_two hx0 hx1
  have hrw : -((k : ℝ) / (n : ℝ)) * Real.logb 2 ((k : ℝ) / (n : ℝ))
      = ((k : ℝ) / (n : ℝ)) * (-Real.logb 2 ((k : ℝ) / (n : ℝ))) := by ring
  rw [hrw]
  exact mul_nonneg hx0 (by linarith)

theorem entropyOfSizes_nonneg (n : Nat) (sizes : List Nat) (h : ∀ k ∈ sizes, k ≤ n) :
    0 ≤ entropyOfSizes n sizes := by
  apply List.sum_nonneg
  intro x hx
  obtain ⟨k, hk, rfl⟩ := List.mem_map.mp hx
  exact entropy_term_nonneg n k (h k hk)

theorem entropyOfSizes_le_logb (n : Nat) (sizes : List Nat) (hsum : sizes.sum = n)
    (hpos : ∀ k ∈ sizes, 1 ≤ k) (hn : 1 ≤ n) :
    entropyOfSizes n sizes ≤ Real.logb 2 (n : ℝ) := by
  have hnR : (0 : ℝ) < (n : ℝ) := by exact_mod_cast hn
  have hne : (n : ℝ) ≠ 0 := ne_of_gt hnR
  have step : ∀ k ∈ sizes,
      -((k : ℝ) / (n : ℝ)) * Real.logb 2 ((k : ℝ) / (n : ℝ))
        ≤ (k : ℝ) * (Real.logb 2 (n : ℝ) / (n : ℝ)) := by
    intro k hk
    have hk1 : (1 : ℝ) ≤ (k : ℝ) := by exact_mod_cast hpos k hk
    have hkpos : (0 : ℝ) < (k : ℝ) := by linarith
    have hlogk : 0 ≤ Real.logb 2 (k : ℝ) := Real.logb_nonneg one_lt_two hk1
    have hdiv : Real.logb 2 ((k : ℝ) / (n : ℝ))
        = Real.logb 2 (k : ℝ) - Real.logb 2 (n : ℝ) :=
      Real.logb_div (ne_of_gt hkpos) hne
    rw [hdiv]
    have hkn : 0 ≤ (k : ℝ) / (n : ℝ) := by positivity
    have expand : -((k : ℝ) / (n : ℝ)) * (Real.logb 2 (k : ℝ) - Real.logb 2 (n : ℝ))
        = ((k : ℝ) / (n : ℝ)) * (Real.logb 2 (n : ℝ) - Real.logb 2 (k : ℝ)) := by ring
    rw [expand]
    have h1 : ((k : ℝ) / (n : ℝ)) * (Real.logb 2 (n : ℝ) - Real.logb 2 (k : ℝ))
        ≤ ((k : ℝ) / (n : ℝ)) * Real.logb 2 (n : ℝ) := by
      apply mul_le_mul_of_nonneg_left _ hkn
      linarith
    have h2 : ((k : ℝ) / (n : ℝ)) * Real.logb 2 (n : ℝ)
        = (k : ℝ) * (Real.logb 2 (n : ℝ) / (n : ℝ)) := by ring
    linarith
  have hsum1 : entropyOfSizes n sizes
      ≤ (sizes.map (fun (k : Nat) => (k : ℝ) * (Real.logb 2 (n : ℝ) / (n : ℝ)))).sum :=
    List.sum_le_sum step
  have hrhs : (sizes.map (fun (k : Nat) => (k : ℝ) * (Real.logb 2 (n : ℝ) / (n : ℝ)))).sum
      = Real.logb 2 (n : ℝ) := by
    rw [List.sum_map_mul_right sizes (fun (k : Nat) => (k : ℝ))]
    have hcast : (sizes.map (fun (k : Nat) => (k : ℝ))).sum = ((sizes.sum : ℕ) : ℝ) := by
      rw [Nat.cast_list_sum]
    rw [hcast, hsum, mul_comm, div_mul_cancel₀ _ hne]
  rw [hrhs] at hsum1
  exact hsum1

theorem entropyOfSizes_eq_zero_iff (n : Nat) (sizes : List Nat) (hsum : sizes.sum = n)
    (hpos : ∀ k ∈ sizes, 1 ≤ k) (hn : 1 ≤ n) :
    entropyOfSizes n sizes = 0 ↔ ∀ k ∈ sizes, k = n := by
  have hnR : (0 : ℝ) < (n : ℝ) := by exact_mod_cast hn
  have hne : (n : ℝ) ≠ 0 := ne_of_gt hnR
  constructor
  · intro h0 k hk
    have hnonneg : ∀ x ∈ sizes.map
        (fun (k : Nat) => -((k : ℝ) / (n : ℝ)) * Real.logb 2 ((k : ℝ) / (n : ℝ))), 0 ≤ x := by
      intro x hx
      obtain ⟨k2, hk2, rfl⟩ := List.mem_map.mp hx
      have hk2n : k2 ≤ n := hsum ▸ List.single_le_sum (fun x _ => Nat.zero_le x) k2 hk2
      exact entropy_term_nonneg n k2 hk2n
    have hterm : -((k : ℝ) / (n : ℝ)) * Real.logb 2 ((k : ℝ) / (n : ℝ)) = 0 :=
      List.all_zero_of_le_zero_le_of_sum_eq_zero hnonneg h0
        (List.mem_map_of_mem _ hk)
    have hk1 : (1 : ℝ) ≤ (k : ℝ) := by exact_mod_cast hpos k hk
    have hkpos : (0 : ℝ) < (k : ℝ) := by linarith
    rcases mul_eq_zero.mp hterm with hx | hlog
    · exfalso
      have hxz : (k : ℝ) / (n : ℝ) = 0 := by linarith [neg_eq_zero.mp hx]
      rw [div_eq_zero_iff] at hxz
      rcases hxz with h | h
      · linarith
      · exact hne h
    · rcases Real.logb_eq_zero.mp hlog with h | h | h | h | h | h
      · norm_num at h
      · norm_num at h
      · norm_num at h
      · exfalso
        rw [div_eq_zero_iff] at h
        rcases h with h | h
        · linarith
        · exact hne h
      · field_simp at h
        exact_mod_cast h
      · exfalso
        have hx0 : 0 < (k : ℝ) / (n : ℝ) := div_pos hkpos hnR
        linarith
  · intro hall
    apply List.sum_eq_zero
    intro x hx
    obtain ⟨k, hk, rfl⟩ := List.mem_map.mp hx
    rw [hall k hk, div_self hne, Real.logb_one]
    ring

theorem count_beq_bridge (q : List Char) (pats : List (List Char)) :
    pats.count q = @List.count (List Char) instBEqOfDecidableEq q pats := by
  induction pats with
  | nil => rfl
  | cons a t ih =>
    rw [List.count_cons, @List.count_cons (List Char) instBEqOfDecidableEq q a t, ih]
    congr 1
    by_cases h : a = q
    · have h1 : (a == q) = true := beq_iff_eq.mpr h
      have h2 : (@BEq.beq _ instBEqOfDecidableEq a q) = true := by
        show decide (a = q) = true
        exact decide_eq_true h
      rw [h1, h2]
    · have h1 : (a == q) = false := beq_eq_false_iff_ne.mpr h
      have h2 : (@BEq.beq _ instBEqOfDecidableEq a q) = false := by
        show decide (a = q) = false
        exact decide_eq_false h
      rw [h1, h2]

theorem bucketSizes_sum (pats : List (List Char)) : (bucketSizes pats).sum = pats.length := by
  unfold bucketSizes
  have hb := List.sum_map_count_dedup_eq_length pats
  rw [← hb]
  congr 1
  apply List.map_congr_left
  intro q hq
  exact count_beq_bridge q pats

theorem bucketSizes_pos (pats : List (List Char)) : ∀ k ∈ bucketSizes pats, 1 ≤ k := by
  intro k hk
  obtain ⟨q, hq, rfl⟩ := List.mem_map.mp hk
  exact List.count_pos_iff.mpr (List.mem_dedup.mp hq)

theorem bucketSizes_le (pats : List (List Char)) : ∀ k ∈ bucketSizes pats, k ≤ pats.length := by
  intro k hk
  obtain ⟨q, hq, rfl⟩ := List.mem_map.mp hk
  exact List.count_le_length q pats

theorem bucketSizes_all_eq_iff (pats : List (List Char)) :
    (∀ k ∈ bucketSizes pats, k = pats.length) ↔ ∀ q1 ∈ pats, ∀ q2 ∈ pats, q1 = q2 := by
  constructor
  · intro h q1 hq1 q2 hq2
    have hd1 : q1 ∈ pats.dedup := List.mem_dedup.mpr hq1
    have hc1 : pats.count q1 = pats.length := h _ (List.mem_map_of_mem _ hd1)
    exact List.count_eq_length.mp hc1 q2 hq2
  · intro h k hk
    obtain ⟨q, hq, rfl⟩ := List.mem_map.mp hk
    apply List.count_eq_length.mpr
    intro b hb
    exact h q (List.mem_dedup.mp hq) b hb

theorem list_sum_map_neg (l : List (List Char)) (f : List Char → ℝ) :
    (l.map (fun a => -(f a))).sum = -((l.map f).sum) := by
  induction l with
  | nil => simp
  | cons a t ih => simp [ih]; ring

/-- Claim C3: for a 5-letter guess and a non-empty list of 5-letter
candidates, entropy_of_guess returns -sum p*log2(p) over the nonempty
pattern buckets (p = bucket_size / n), the value lies in the interval
[0, log2 n], and it is 0 exactly when every candidate produces the same
pattern for the guess. -/
theorem entropy_of_guess_bounds (g : List Char) (c : List (List Char))
    (hg : g.length = 5) (hc : ∀ w ∈ c, w.length = 5) (hne : c ≠ []) :
    ∃ e : ℝ, entropy_of_guess g c = some e ∧
      e = -(((c.map (fun w => patternCore g w)).dedup.map
          (fun q => (((c.map (fun w => patternCore g w)).count q : ℝ) / (c.length : ℝ))
            * Real.logb 2
              (((c.map (fun w => patternCore g w)).count q : ℝ) / (c.length : ℝ)))).sum) ∧
      0 ≤ e ∧ e ≤ Real.logb 2 (c.length : ℝ) ∧
      (e = 0 ↔ ∀ w1 ∈ c, ∀ w2 ∈ c, pattern_for g w1 = pattern_for g w2) := by
  set pats := c.map (fun w => patternCore g w) with hpats
  have hlenp : pats.length = c.length := List.length_map _ _
  have hn1 : 1 ≤ c.length := List.length_pos.mpr hne
  have hsum : (bucketSizes pats).sum = c.length := by rw [bucketSizes_sum, hlenp]
  have hpos := bucketSizes_pos pats
  refine ⟨entPure g c, entropy_of_guess_eq_pure g c hg hc, ?_, ?_, ?_, ?_⟩
  · show entropyOfSizes c.length (bucketSizes pats) = _
    unfold entropyOfSizes bucketSizes
    rw [List.map_map, ← list_sum_map_neg]
    congr 1
    apply List.map_congr_left
    intro q hq
    simp only [Function.comp_apply]
    ring
  · show 0 ≤ entropyOfSizes c.length (bucketSizes pats)
    apply entropyOfSizes_nonneg
    intro k hk
    have := bucketSizes_le pats k hk
    rw [hlenp] at this
    exact this
  · show entropyOfSizes c.length (bucketSizes pats) ≤ _
    exact entropyOfSizes_le_logb c.length (bucketSizes pats) hsum hpos hn1
  · show entropyOfSizes c.length (bucketSizes pats) = 0 ↔ _
    rw [entropyOfSizes_eq_zero_iff c.length (bucketSizes pats) hsum hpos hn1, ← hlenp,
      bucketSizes_all_eq_iff]
    constructor
    · intro h w1 hw1 w2 hw2
      rw [pattern_for_eq_core g w1 hg (hc w1 hw1), pattern_for_eq_core g w2 hg (hc w2 hw2)]
      exact congrArg some (h _ (List.mem_map_of_mem _ hw1) _ (List.mem_map_of_mem _ hw2))
    · intro h q1 hq1 q2 hq2
      obtain ⟨w1, hw1, rfl⟩ := List.mem_map.mp hq1
      obtain ⟨w2, hw2, rfl⟩ := List.mem_map.mp hq2
      have hpe := h w1 hw1 w2 hw2
      rw [pattern_for_eq_core g w1 hg (hc w1 hw1),
        pattern_for_eq_core g w2 hg (hc w2 hw2)] at hpe
      exact Option.some.inj hpe

theorem entropy_of_guess_bounds_witness :
    ∃ e : ℝ, entropy_of_guess ("crane".toList) [("slate".toList)] = some e ∧
      e = -((([("slate".toList)].map (fun w => patternCore ("crane".toList) w)).dedup.map
          (fun q => ((([("slate".toList)].map (fun w => patternCore ("crane".toList) w)).count q : ℝ)
              / (([("slate".toList)] : List (List Char)).length : ℝ))
            * Real.logb 2
              ((([("slate".toList)].map (fun w => patternCore ("crane".toList) w)).count q : ℝ)
                / (([("slate".toList)] : List (List Char)).length : ℝ)))).sum) ∧
      0 ≤ e ∧ e ≤ Real.logb 2 ((([("slate".toList)] : List (List Char)).length : ℝ)) ∧
      (e = 0 ↔ ∀ w1 ∈ [("slate".toList)], ∀ w2 ∈ [("slate".toList)],
        pattern_for ("crane".toList) w1 = pattern_for ("crane".toList) w2) :=
  entropy_of_guess_bounds ("crane".toList) [("slate".toList)]
    (by decide) (by decide) (by decide)

/-! ## The best_entropy_guess scan -/

open Classical in
/-- The pure replacement step of the scan, on the real entropy values:
the running best is replaced when the new entropy is strictly greater,
or exactly equal while the new guess is a candidate and the running best
is not. -/
noncomputable def stepOf (c : List (List Char)) (acc : Option (List Char) × ℝ)
    (g : List Char) : Option (List Char) × ℝ :=
  if acc.2 < entPure g c ∨ (entPure g c = acc.2 ∧ g ∈ c ∧ ¬ optMem acc.1 c)
    then (some g, entPure g c) else acc

/-- The pure scanning loop on the real entropy values. -/
noncomputable def scanPure (c : List (List Char)) :
    Option (List Char) × ℝ → List (List Char) → Option (List Char) × ℝ
  | acc, [] => acc
  | acc, g :: gs => scanPure c (stepOf c acc g) gs

theorem scanPure_nil (c : List (List Char)) (acc : Option (List Char) × ℝ) :
    scanPure c acc [] = acc := rfl

theorem scanPure_cons (c : List (List Char)) (acc : Option (List Char) × ℝ)
    (g : List Char) (gs : List (List Char)) :
    scanPure c acc (g :: gs) = scanPure c (stepOf c acc g) gs := rfl

theorem stepOf_pos (c : List (List Char)) (acc : Option (List Char) × ℝ) (g : List Char)
    (h : acc.2 < entPure g c ∨ (entPure g c = acc.2 ∧ g ∈ c ∧ ¬ optMem acc.1 c)) :
    stepOf c acc g = (some g, entPure g c) := by
  unfold stepOf
  rw [if_pos h]

theorem stepOf_neg (c : List (List Char)) (acc : Option (List Char) × ℝ) (g : List Char)
    (h : ¬(acc.2 < entPure g c ∨ (entPure g c = acc.2 ∧ g ∈ c ∧ ¬ optMem acc.1 c))) :
    stepOf c acc g = acc := by
  unfold stepOf
  rw [if_neg h]

theorem stepOf_snd_le (c : List (List Char)) (acc : Option (List Char) × ℝ) (g : List Char) :
    acc.2 ≤ (stepOf c acc g).2 := by
  by_cases h : acc.2 < entPure g c ∨ (entPure g c = acc.2 ∧ g ∈ c ∧ ¬ optMem acc.1 c)
  · rw [stepOf_pos c acc g h]
    rcases h with h | h
    · exact le_of_lt h
    · exact le_of_eq h.1.symm
  · rw [stepOf_neg c acc g h]

theorem stepOf_ent_le (c : List (List Char)) (acc : Option (List Char) × ℝ) (g : List Char) :
    entPure g c ≤ (stepOf c acc g).2 := by
  by_cases h : acc.2 < entPure g c ∨ (entPure g c = acc.2 ∧ g ∈ c ∧ ¬ optMem acc.1 c)
  · rw [stepOf_pos c acc g h]
  · rw [stepOf_neg c acc g h]
    push_neg at h
    exact h.1

theorem scanPure_snd_mono (c : List (List Char)) :
    ∀ (l : List (List Char)) (acc : Option (List Char) × ℝ),
      acc.2 ≤ (scanPure c acc l).2 := by
  intro l
  induction l with
  | nil => intro acc; rw [scanPure_nil]
  | cons g gs ih =>
    intro acc
    rw [scanPure_cons]
    exact le_trans (stepOf_snd_le c acc g) (ih (stepOf c acc g))

theorem scanPure_snd_ge (c : List (List Char)) :
    ∀ (l : List (List Char)) (acc : Option (List Char) × ℝ),
      ∀ x ∈ l, entPure x c ≤ (scanPure c acc l).2 := by
  intro l
  induction l with
  | nil => intro acc x hx; simp at hx
  | cons g gs ih =>
    intro acc x hx
    rw [scanPure_cons]
    rcases List.mem_cons.mp hx with rfl | hx'
    · exact le_trans (stepOf_ent_le c acc x) (scanPure_snd_mono c gs (stepOf c acc x))
    · exact ih (stepOf c acc g) x hx'

theorem scanPure_form (c : List (List Char)) :
    ∀ (l : List (List Char)) (acc : Option (List Char) × ℝ),
      scanPure c acc l = acc ∨ ∃ g ∈ l, scanPure c acc l = (some g, entPure g c) := by
  intro l
  induction l with
  | nil => intro acc; exact Or.inl rfl
  | cons g gs ih =>
    intro acc
    rw [scanPure_cons]
    rcases ih (stepOf c acc g) with h | ⟨g2, hg2, h⟩
    · rw [h]
      by_cases hc : acc.2 < entPure g c ∨ (entPure g c = acc.2 ∧ g ∈ c ∧ ¬ optMem acc.1 c)
      · rw [stepOf_pos c acc g hc]
        exact Or.inr ⟨g, by simp, rfl⟩
      · rw [stepOf_neg c acc g hc]
        exact Or.inl rfl
    · exact Or.inr ⟨g2, by simp [hg2], h⟩

/-- Once the running best is a candidate and the scan never finds a
strictly larger entropy, the best never changes: a tie can only replace
a non-candidate best. -/
theorem scanPure_good_stable (c : List (List Char)) :
    ∀ (l : List (List Char)) (acc : Option (List Char) × ℝ),
      optMem acc.1 c → acc.2 = (scanPure c acc l).2 → scanPure c acc l = acc := by
  intro l
  induction l with
  | nil => intro acc _ _; rw [scanPure_nil]
  | cons g gs ih =>
    intro acc hgood hlevel
    rw [scanPure_cons] at hlevel ⊢
    by_cases hc : acc.2 < entPure g c ∨ (entPure g c = acc.2 ∧ g ∈ c ∧ ¬ optMem acc.1 c)
    · exfalso
      rcases hc with hlt | htie
      · have h1 : entPure g c ≤ (scanPure c (stepOf c acc g) gs).2 := by
          have := stepOf_ent_le c acc g
          exact le_trans this (scanPure_snd_mono c gs (stepOf c acc g))
        rw [← hlevel] at h1
        exact absurd (lt_of_lt_of_le hlt h1) (lt_irrefl _)
      · exact htie.2.2 hgood
    · rw [stepOf_neg c acc g hc] at hlevel ⊢
      exact ih acc hgood hlevel

/-- If the scan changed the running best without raising its entropy
level, the final best must be a candidate (only the tie rule can move
the best at constant level, and the tie rule installs candidates). -/
theorem scanPure_good_of_level (c : List (List Char)) :
    ∀ (l : List (List Char)) (acc : Option (List Char) × ℝ),
      scanPure c acc l ≠ acc → acc.2 = (scanPure c acc l).2 →
      optMem (scanPure c acc l).1 c := by
  intro l
  induction l with
  | nil => intro acc hne _; exact absurd (scanPure_nil c acc) hne
  | cons g gs ih =>
    intro acc hne hlevel
    rw [scanPure_cons] at hne hlevel ⊢
    by_cases hc : acc.2 < entPure g c ∨ (entPure g c = acc.2 ∧ g ∈ c ∧ ¬ optMem acc.1 c)
    · rcases hc with hlt | htie
      · exfalso
        have h1 : entPure g c ≤ (scanPure c (stepOf c acc g) gs).2 := by
          have := stepOf_ent_le c acc g
          exact le_trans this (scanPure_snd_mono c gs (stepOf c acc g))
        rw [← hlevel] at h1
        exact absurd (lt_of_lt_of_le hlt h1) (lt_irrefl _)
      · have hstep : stepOf c acc g = (some g, entPure g c) :=
          stepOf_pos c acc g (Or.inr htie)
        have hgood : optMem (stepOf c acc g).1 c := by
          rw [hstep]
          exact ⟨g, rfl, htie.2.1⟩
        have hlevel2 : (stepOf c acc g).2 = (scanPure c (stepOf c acc g) gs).2 := by
          rw [hstep]
          rw [hstep] at hlevel
          rw [← hlevel]
          exact htie.1
        have := scanPure_good_stable c gs (stepOf c acc g) hgood hlevel2
        rw [this]
        exact hgood
    · rw [stepOf_neg c acc g hc] at hne hlevel ⊢
      exact ih acc hne hlevel


/-- If some pool element attaining the final entropy level is a
candidate, then the final best is a candidate. -/
theorem scanPure_pref (c : List (List Char)) :
    ∀ (l : List (List Char)) (acc : Option (List Char) × ℝ),
      (∃ x ∈ l, entPure x c = (scanPure c acc l).2 ∧ x ∈ c) →
      optMem (scanPure c acc l).1 c := by
  intro l
  induction l with
  | nil =>
    intro acc h
    simp at h
  | cons g gs ih =>
    rintro acc ⟨x, hx, hlevel, hxc⟩
    rw [scanPure_cons] at hlevel ⊢
    rcases List.mem_cons.mp hx with rfl | hx'
    · have h1 : entPure x c ≤ (stepOf c acc x).2 := stepOf_ent_le c acc x
      have h2 : (stepOf c acc x).2 ≤ (scanPure c (stepOf c acc x) gs).2 :=
        scanPure_snd_mono c gs (stepOf c acc x)
      have h3 : (scanPure c (stepOf c acc x) gs).2 ≤ (stepOf c acc x).2 := by
        rw [← hlevel]
        exact h1
      have hAR : (stepOf c acc x).2 = (scanPure c (stepOf c acc x) gs).2 :=
        le_antisymm h2 h3
      have hgood : optMem (stepOf c acc x).1 c := by
        by_cases hco : acc.2 < entPure x c ∨ (entPure x c = acc.2 ∧ x ∈ c ∧ ¬ optMem acc.1 c)
        · rw [stepOf_pos c acc x hco]
          exact ⟨x, rfl, hxc⟩
        · have hsn := stepOf_neg c acc x hco
          rw [hsn]
          push_neg at hco
          apply hco.2 _ hxc
          have hacc2 : (stepOf c acc x).2 = acc.2 := by rw [hsn]
          have hEA : entPure x c ≤ acc.2 := hco.1
          have hAE : acc.2 ≤ entPure x c := by
            rw [← hacc2, hAR, ← hlevel]
          exact le_antisymm hEA hAE
      have hstable := scanPure_good_stable c gs (stepOf c acc x) hgood hAR
      rw [hstable]
      exact hgood
    · exact ih (stepOf c acc g) ⟨x, hx', hlevel, hxc⟩

/-- Position of the final best: everything strictly before it in the
pool either has strictly smaller entropy, or ties while being a
non-candidate that lost to a candidate. -/
theorem scanPure_earliest (c : List (List Char)) :
    ∀ (l : List (List Char)) (acc : Option (List Char) × ℝ),
      scanPure c acc l ≠ acc →
      ∃ i g, l.get? i = some g ∧ scanPure c acc l = (some g, entPure g c) ∧
        ∀ j x, j < i → l.get? j = some x →
          entPure x c < (scanPure c acc l).2 ∨
          (entPure x c = (scanPure c acc l).2 ∧ x ∉ c ∧ optMem (scanPure c acc l).1 c) := by
  intro l
  induction l with
  | nil =>
    intro acc hne
    exact absurd (scanPure_nil c acc) hne
  | cons g gs ih =>
    intro acc hne
    rw [scanPure_cons] at hne ⊢
    by_cases hr : scanPure c (stepOf c acc g) gs = stepOf c acc g
    · rw [hr] at hne ⊢
      by_cases hco : acc.2 < entPure g c ∨ (entPure g c = acc.2 ∧ g ∈ c ∧ ¬ optMem acc.1 c)
      · have hstep := stepOf_pos c acc g hco
        refine ⟨0, g, rfl, hstep, ?_⟩
        intro j x hj hx
        exact absurd hj (Nat.not_lt_zero j)
      · exact absurd (stepOf_neg c acc g hco) hne
    · obtain ⟨i2, g2, hi2, hval, hbefore⟩ := ih (stepOf c acc g) hr
      refine ⟨i2 + 1, g2, by simpa using hi2, hval, ?_⟩
      intro j x hj hx
      cases j with
      | zero =>
        have hxg : g = x := by simpa using hx
        subst hxg
        have h1 : entPure g c ≤ (stepOf c acc g).2 := stepOf_ent_le c acc g
        have h2 : (stepOf c acc g).2 ≤ (scanPure c (stepOf c acc g) gs).2 :=
          scanPure_snd_mono c gs (stepOf c acc g)
        have hle : entPure g c ≤ (scanPure c (stepOf c acc g) gs).2 := le_trans h1 h2
        rcases lt_or_eq_of_le hle with hlt | heq
        · exact Or.inl hlt
        · have hA : (stepOf c acc g).2 = (scanPure c (stepOf c acc g) gs).2 :=
            le_antisymm h2 (heq ▸ h1)
          have hgoodr : optMem (scanPure c (stepOf c acc g) gs).1 c :=
            scanPure_good_of_level c gs (stepOf c acc g) hr hA
          have hgnotc : g ∉ c := by
            intro hgc
            have hgoodA : optMem (stepOf c acc g).1 c := by
              by_cases hco : acc.2 < entPure g c ∨
                  (entPure g c = acc.2 ∧ g ∈ c ∧ ¬ optMem acc.1 c)
              · rw [stepOf_pos c acc g hco]
                exact ⟨g, rfl, hgc⟩
              · have hsn := stepOf_neg c acc g hco
                rw [hsn]
                push_neg at hco
                apply hco.2 _ hgc
                have hacc2 : acc.2 = (stepOf c acc g).2 := by rw [hsn]
                rw [heq, ← hA, ← hacc2]
            exact hr (scanPure_good_stable c gs (stepOf c acc g) hgoodA hA)
          exact Or.inr ⟨heq, hgnotc, hgoodr⟩
      | succ j2 =>
        have hj2 : j2 < i2 := by omega
        have hx2 : gs.get? j2 = some x := by simpa using hx
        exact hbefore j2 x hj2 hx2

theorem scanStep_eq (c : List (List Char)) (acc : Option (List Char) × ℝ) (g : List Char)
    (hg : g.length = 5) (hc : ∀ w ∈ c, w.length = 5) :
    scanStep c acc g = some (stepOf c acc g) := by
  unfold scanStep stepOf
  rw [entropy_of_guess_eq_pure g c hg hc]
  rfl

theorem scanPool_cons (g : List Char) (gs c : List (List Char))
    (acc : Option (List Char) × ℝ) :
    scanPool (g :: gs) c acc = scanStep c acc g >>= fun acc2 => scanPool gs c acc2 := by
  unfold scanPool
  exact List.foldlM_cons (scanStep c) acc g gs

theorem scanPool_eq_pure (c : List (List Char)) (hc : ∀ w ∈ c, w.length = 5) :
    ∀ (pool : List (List Char)), (∀ g ∈ pool, g.length = 5) →
      ∀ acc, scanPool pool c acc = some (scanPure c acc pool) := by
  intro pool
  induction pool with
  | nil =>
    intro _ acc
    rfl
  | cons g gs ih =>
    intro hp acc
    have hg : g.length = 5 := hp g (by simp)
    have hgs : ∀ x ∈ gs, x.length = 5 := fun x hx => hp x (by simp [hx])
    rw [scanPool_cons, scanStep_eq c acc g hg hc]
    show scanPool gs c (stepOf c acc g) = some (scanPure c acc (g :: gs))
    rw [scanPure_cons]
    exact ih hgs (stepOf c acc g)

/-- Claim C5: in the scan of best_entropy_guess over the chosen pool, a
later guess replaces the running best only on strictly greater entropy
or an exact tie in which the new guess is a candidate and the running
best is not; consequently for a non-empty pool the returned word attains
the maximum entropy over the pool, a candidate member is preferred among
maximum-entropy words, and otherwise the earliest pool word wins: every
earlier word has strictly smaller entropy or is a tying non-candidate
beaten by a candidate. -/
theorem best_entropy_tiebreak (c a : List (List Char))
    (hc : ∀ w ∈ c, w.length = 5) (ha : ∀ w ∈ a, w.length = 5)
    (hne : chosenPool c a ≠ []) :
    ∃ gbest i, (chosenPool c a).get? i = some gbest ∧
      best_entropy_guess c a = some (some gbest, entPure gbest c) ∧
      (∀ x ∈ chosenPool c a, entPure x c ≤ entPure gbest c) ∧
      ((∃ x ∈ chosenPool c a, entPure x c = entPure gbest c ∧ x ∈ c) → gbest ∈ c) ∧
      (∀ j x, j < i → (chosenPool c a).get? j = some x →
        entPure x c < entPure gbest c ∨
        (entPure x c = entPure gbest c ∧ x ∉ c ∧ gbest ∈ c)) := by
  have hp : ∀ g ∈ chosenPool c a, g.length = 5 := by
    intro g hg
    unfold chosenPool at hg
    by_cases h30 : 30 < c.length
    · rw [if_pos h30] at hg
      exact ha g hg
    · rw [if_neg h30] at hg
      exact hc g hg
  have hbridge : best_entropy_guess c a
      = some (scanPure c ((none : Option (List Char)), (-1 : ℝ)) (chosenPool c a)) := by
    unfold best_entropy_guess
    exact scanPool_eq_pure c hc (chosenPool c a) hp _
  have hent0 : ∀ gg : List Char, 0 ≤ entPure gg c := by
    intro gg
    apply entropyOfSizes_nonneg
    intro k hk
    have h1 := bucketSizes_le (c.map (fun w => patternCore gg w)) k hk
    rw [List.length_map] at h1
    exact h1
  have hne2 : scanPure c ((none : Option (List Char)), (-1 : ℝ)) (chosenPool c a)
      ≠ ((none : Option (List Char)), (-1 : ℝ)) := by
    intro heq
    obtain ⟨h0, t0, hcons⟩ := List.exists_cons_of_ne_nil hne
    have h1 : entPure h0 c
        ≤ (scanPure c ((none : Option (List Char)), (-1 : ℝ)) (chosenPool c a)).2 := by
      apply scanPure_snd_ge
      rw [hcons]
      simp
    rw [heq] at h1
    have h2 := hent0 h0
    have h3 : ((none : Option (List Char)), (-1 : ℝ)).2 = (-1 : ℝ) := rfl
    rw [h3] at h1
    linarith
  obtain ⟨i, g, hi, hval, hbefore⟩ :=
    scanPure_earliest c (chosenPool c a) ((none : Option (List Char)), (-1 : ℝ)) hne2
  refine ⟨g, i, hi, ?_, ?_, ?_, ?_⟩
  · rw [hbridge, hval]
  · intro x hx
    have h1 := scanPure_snd_ge c (chosenPool c a) ((none : Option (List Char)), (-1 : ℝ)) x hx
    rw [hval] at h1
    exact h1
  · intro hex
    have hex2 : ∃ x ∈ chosenPool c a,
        entPure x c
          = (scanPure c ((none : Option (List Char)), (-1 : ℝ)) (chosenPool c a)).2
          ∧ x ∈ c := by
      obtain ⟨x, hx1, hx2, hx3⟩ := hex
      refine ⟨x, hx1, ?_, hx3⟩
      rw [hval]
      exact hx2
    have hgood := scanPure_pref c (chosenPool c a) ((none : Option (List Char)), (-1 : ℝ)) hex2
    rw [hval] at hgood
    obtain ⟨w, hw, hwc⟩ := hgood
    have hgw : g = w := Option.some.inj hw
    rw [hgw]
    exact hwc
  · intro j x hj hx
    have h1 := hbefore j x hj hx
    rw [hval] at h1
    rcases h1 with h | ⟨ha1, ha2, ha3⟩
    · exact Or.inl h
    · refine Or.inr ⟨ha1, ha2, ?_⟩
      obtain ⟨w, hw, hwc⟩ := ha3
      have hgw : g = w := Option.some.inj hw
      rw [hgw]
      exact hwc

theorem best_entropy_tiebreak_witness :
    ∃ gbest i, (chosenPool [("crane".toList)] []).get? i = some gbest ∧
      best_entropy_guess [("crane".toList)] []
        = some (some gbest, entPure gbest [("crane".toList)]) ∧
      (∀ x ∈ chosenPool [("crane".toList)] [],
        entPure x [("crane".toList)] ≤ entPure gbest [("crane".toList)]) ∧
      ((∃ x ∈ chosenPool [("crane".toList)] [],
          entPure x [("crane".toList)] = entPure gbest [("crane".toList)]
            ∧ x ∈ [("crane".toList)]) →
        gbest ∈ [("crane".toList)]) ∧
      (∀ j x, j < i → (chosenPool [("crane".toList)] []).get? j = some x →
        entPure x [("crane".toList)] < entPure gbest [("crane".toList)] ∨
        (entPure x [("crane".toList)] = entPure gbest [("crane".toList)]
          ∧ x ∉ [("crane".toList)] ∧ gbest ∈ [("crane".toList)])) :=
  best_entropy_tiebreak [("crane".toList)] [] (by decide) (by simp) (by decide)
